import Mathlib

/-!
Verification development for the dynamic-xuanfang repository.

The JavaScript sources are shallowly embedded:
- JS numbers are modelled as rationals; the value NaN (and, where only the
  Number.isFinite test matters, the infinities) is modelled by a separate
  constructor of JNum.
- src/normalize.js, src/bisect.js, src/topk.js and the pruned solver of
  src/solver.js (function bestTopKCombos, second version in the file) are
  translated function by function.
- Mutation of the pair (topList, seenKeys) is made explicit as a state record
  TKState threaded through the enumeration loops.
-/

namespace DXF

/-- Rational addition, written so that the kernel can evaluate it (the
library addition on ℚ is irreducible); proved equal to the standard
addition in qadd_eq. -/
def qadd (a b : ℚ) : ℚ := mkRat (a.num * b.den + b.num * a.den) (a.den * b.den)

/-- Kernel-computable rational subtraction; see qsub_eq. -/
def qsub (a b : ℚ) : ℚ := mkRat (a.num * b.den - b.num * a.den) (a.den * b.den)

/-- Kernel-computable rational multiplication; see qmul_eq. -/
def qmul (a b : ℚ) : ℚ := mkRat (a.num * b.num) (a.den * b.den)

/-- Kernel-computable rational floor; see qfloor_eq. -/
def qfloor (a : ℚ) : ℤ := a.num / a.den

/-- A JS number as far as the claims need it: either a finite rational or a
non-finite value (NaN or an infinity; the code under test only ever
distinguishes these via Number.isFinite or truthiness). -/
inductive JNum where
  | fin (q : ℚ)
  | nan
deriving DecidableEq

/-- A JS value fed to normalizeType: a string or any non-string value. -/
inductive JVal where
  | str (s : String)
  | nonString
deriving DecidableEq

/-- Whitespace characters removed by String.prototype.trim (the common
WhiteSpace and LineTerminator code points). -/
def isJsWs (c : Char) : Bool :=
  c == ' ' || c == '\t' || c == '\n' || c == '\r' || c == '\x0b' || c == '\x0c' ||
  c == ' ' || c == '﻿' || c == ' ' || c == ' ' || c == '　'

/-- JS String.prototype.trim on a character list. -/
def trimList (l : List Char) : List Char :=
  ((l.dropWhile isJsWs).reverse.dropWhile isJsWs).reverse

/-- The capture group of the regex in src/normalize.js: the letter classes
A, B, C, D, case-insensitively, produced uppercase (m[1].toUpperCase()). -/
def letterCanon (c : Char) : Option Char :=
  if c = 'A' ∨ c = 'a' then some 'A'
  else if c = 'B' ∨ c = 'b' then some 'B'
  else if c = 'C' ∨ c = 'c' then some 'C'
  else if c = 'D' ∨ c = 'd' then some 'D'
  else none

/-- Full-string match of the regex in normalizeType: one letter of the
alphabet, optionally followed by the suffix marker 类. -/
def matchTypePattern : List Char → Option Char
  | [c] => letterCanon c
  | [c, suf] => if suf = '类' then letterCanon c else none
  | _ => none

/-- src/normalize.js normalizeType: non-strings yield null; strings are
trimmed and matched against the regex. -/
def normalizeType : JVal → Option Char
  | .str s => matchTypePattern (trimList s.toList)
  | .nonString => none

/-- Alphabet of the spec's 4.1 contract, as canonicalization pairs. -/
def alphaPairs : List (Char × Char) :=
  [('A', 'A'), ('a', 'A'), ('B', 'B'), ('b', 'B'),
   ('C', 'C'), ('c', 'C'), ('D', 'D'), ('d', 'D')]

/-- Spec 4.1, written from its words: the canonical uppercase letter for a
recognized single letter of the fixed alphabet. -/
def alphaLookup (c : Char) : Option Char := alphaPairs.lookup c

/-- Spec 4.1 core: a string consisting of a single letter of the alphabet,
optionally followed by the category suffix marker, yields the canonical
letter; anything else is unrecognized. -/
def specTypeCore : List Char → Option Char
  | [c] => alphaLookup c
  | [c, suf] => if suf = '类' then alphaLookup c else none
  | _ => none

/-- The claim C9 reading of the spec contract: no trimming anywhere — the
input string itself must consist of the letter and optional suffix. -/
def specRecognize : JVal → Option Char
  | .str s => specTypeCore s.toList
  | .nonString => none

/-- The amended contract: the code first trims leading and trailing
whitespace, then applies the spec 4.1 recognition. -/
def specRecognizeTrimmed : JVal → Option Char
  | .str s => specTypeCore (trimList s.toList)
  | .nonString => none

/-- An item as kept by the solver after filtering and normalization
(src/solver.js, the items array of bestTopKCombos). -/
structure Item where
  area : ℚ
  ty : Char
  srcFile : String
  community : Option String := none
  buildingNo : Option String := none
  roomNo : Option String := none
  doorNo : Option String := none
deriving DecidableEq

instance : Inhabited Item := ⟨⟨0, 'A', "", none, none, none, none⟩⟩

/-- A candidate entry of the Top-K list (src/topk.js): a sum and the picked
items. -/
structure Entry where
  sum : ℚ
  picked : List Item
deriving DecidableEq

/-- The canonical dedup identity of src/topk.js makeKey: the multiset of
(area, type, srcFile) triples of the picked items (the JS code serializes
each triple to a string and sorts; for the item alphabet of this program the
serialization is injective, so the sorted string list and the multiset of
triples carry the same information). -/
def makeKey (picked : List Item) : Multiset (ℚ × Char × String) :=
  (picked.map fun x => (x.area, x.ty, x.srcFile) : List (ℚ × Char × String))

/-- The comparator of src/topk.js, (a, b) => b.sum - a.sum: descending by
sum. -/
def sumGE (p q : Entry) : Prop := q.sum ≤ p.sum

instance : DecidableRel sumGE := fun p q => inferInstanceAs (Decidable (q.sum ≤ p.sum))

instance : IsTotal Entry sumGE := ⟨fun p q => le_total q.sum p.sum⟩

instance : IsTrans Entry sumGE := ⟨fun _ _ _ h h2 => le_trans h2 h⟩

/-- The comparator (p, q) => p.area - q.area used to sort each type group
ascending by area. -/
def areaLE (x y : Item) : Prop := x.area ≤ y.area

instance : DecidableRel areaLE := fun x y => inferInstanceAs (Decidable (x.area ≤ y.area))

instance : IsTotal Item areaLE := ⟨fun x y => le_total x.area y.area⟩

instance : IsTrans Item areaLE := ⟨fun _ _ _ h h2 => le_trans h h2⟩

/-- The mutable pair (topList, seenKeys) of the Top-K collector. -/
structure TKState where
  topList : List Entry
  seenKeys : Finset (Multiset (ℚ × Char × String))
deriving DecidableEq

/-- src/topk.js pushTopK: dedup by key, append, stable sort descending by
sum, and when the list exceeds topK pop the last entry and delete its key.
JS Array.prototype.sort is stable; List.insertionSort with the descending
relation is exactly that stable sort. -/
def pushTopK (s : TKState) (cand : Entry) (topK : ℕ) : TKState :=
  if makeKey cand.picked ∈ s.seenKeys then s
  else
    let l := List.insertionSort sumGE (s.topList ++ [cand])
    if topK < l.length then
      ⟨l.dropLast, (insert (makeKey cand.picked) s.seenKeys).erase (makeKey ((l.getLastD cand).picked))⟩
    else
      ⟨l, insert (makeKey cand.picked) s.seenKeys⟩

/-- The current worst retained sum, topList[topList.length - 1].sum; 0 is a
placeholder for the empty list (the code only reads it when the list holds at
least topK ≥ 1 entries). -/
def minKeep (l : List Entry) : ℚ :=
  match l.getLast? with
  | some e => e.sum
  | none => 0

/-- src/bisect.js binary search loop: first position whose area exceeds
maxA, searched in [lo, hi). The while loop of the source halves the interval
each round; here the recursion is paced by an explicit fuel that is always
sufficient because each round shrinks hi - lo by at least one, which keeps
the function computable by the kernel. The out-of-range read is unreachable
whenever hi ≤ arr.length. -/
def bisectGo (arr : List Item) (maxA : ℚ) : ℕ → ℕ → ℕ → ℕ
  | 0, lo, _ => lo
  | fuel + 1, lo, hi =>
    if lo < hi then
      let mid := (lo + hi) / 2
      if (arr.getD mid default).area ≤ maxA then bisectGo arr maxA fuel (mid + 1) hi
      else bisectGo arr maxA fuel lo mid
    else lo

/-- src/bisect.js bisectRightByArea. -/
def bisectRightByArea (arr : List Item) (maxA : ℚ) : ℕ :=
  bisectGo arr maxA (arr.length + 1) 0 arr.length

/-- src/bisect.js pickBestUnderOrEqual: the element before the insertion
point, or null. -/
def pickBestUnderOrEqual (arr : List Item) (maxA : ℚ) : Option Item :=
  let idx := bisectRightByArea arr maxA
  if idx = 0 then none else arr[idx - 1]?

/-- A raw candidate handed to bestTopKCombos before filtering: the content
the code extracts from either the array or the object representation (the
two representation branches of the source extract exactly these fields). -/
structure RawItem where
  area : JNum
  tyLabel : JVal
  srcFile : String
  community : Option String := none
  buildingNo : Option String := none
  roomNo : Option String := none
  doorNo : Option String := none
deriving DecidableEq

/-- The filter and normalization step of bestTopKCombos: positive finite
area, normalized type among A, B, C, and a known source file name. -/
def parseCandidate (fileAName fileBName : String) (it : RawItem) : Option Item :=
  match it.area with
  | .nan => none
  | .fin a =>
    if a ≤ 0 then none
    else
      match normalizeType it.tyLabel with
      | none => none
      | some t =>
        if !(t == 'A' || t == 'B' || t == 'C') then none
        else if it.srcFile ≠ fileAName ∧ it.srcFile ≠ fileBName then none
        else some ⟨a, t, it.srcFile, it.community, it.buildingNo, it.roomNo, it.doorNo⟩

/-- Normalization of the topK argument in bestTopKCombos:
Math.max(1, Math.floor(Number(topK) || 1)); 0 and NaN are falsy. -/
def clampK (k : JNum) : ℕ :=
  match k with
  | .nan => 1
  | .fin q => if q = 0 then 1 else (max 1 (qfloor q)).toNat

/-- The constants of one search invocation, as captured by the closures
inside the pruned bestTopKCombos. -/
structure Ctx where
  targetNum : ℚ
  fileAName : String
  fileBName : String
  topK : ℕ
  disallowDominant : Bool
  dominantMoreThan : JNum
  othersLessThan : JNum
deriving DecidableEq

/-- hasAtLeastOneFromB of the solver. -/
def hasAtLeastOneFromB (ctx : Ctx) (picked : List Item) : Bool :=
  picked.any fun x => x.srcFile == ctx.fileBName

/-- largeQCount of the solver's tryCollect: how many picked items come from
file A with area strictly above 100. -/
def largeQCount (ctx : Ctx) (picked : List Item) : ℕ :=
  (picked.filter fun x => x.srcFile == ctx.fileAName && decide (100 < x.area)).length

/-- The configurable anti-dominance rule of tryCollect: exactly one area
strictly above dominantMoreThan while every other area (those at most
dominantMoreThan) is strictly below othersLessThan; active only when the
rule is enabled and both thresholds are finite numbers. -/
def dominantReject (ctx : Ctx) (picked : List Item) : Bool :=
  match ctx.disallowDominant, ctx.dominantMoreThan, ctx.othersLessThan with
  | true, .fin dmt, .fin olt =>
    let areas := picked.map Item.area
    if (areas.filter fun a => decide (dmt < a)).length = 1 then
      (areas.filter fun a => decide (a ≤ dmt)).all fun a => decide (a < olt)
    else false
  | _, _, _ => false

/-- tryCollect of the pruned solver: budget check, provenance check, the
fixed large-qifang cap, the configurable anti-dominance rule, then offer to
the Top-K collector. -/
def tryCollect (ctx : Ctx) (s : TKState) (picked : List Item) (sum : ℚ) : TKState :=
  if ctx.targetNum < sum then s
  else if !hasAtLeastOneFromB ctx picked then s
  else if 2 ≤ largeQCount ctx picked then s
  else if dominantReject ctx picked then s
  else pushTopK s ⟨sum, picked⟩ ctx.topK

/-- tryCollect with the anti-dominance branch removed, used to state that a
disabled rule rejects nothing. -/
def tryCollectNoDominance (ctx : Ctx) (s : TKState) (picked : List Item) (sum : ℚ) : TKState :=
  if ctx.targetNum < sum then s
  else if !hasAtLeastOneFromB ctx picked then s
  else if 2 ≤ largeQCount ctx picked then s
  else pushTopK s ⟨sum, picked⟩ ctx.topK

/-- The largest area of a size-ascending group, Z[Z.length - 1].area; the
code uses -Infinity for an empty group, which is unreachable because every
group is checked nonempty before the loops run. -/
def maxAreaVal (Z : List Item) : ℚ :=
  match Z.getLast? with
  | some z => z.area
  | none => 0

/-- The inner loop shared by the 3-item search (over b, closing on group C)
and the 4-item search (over y, closing on group Z): iterate the free outer
variable in descending order, skip over-budget partials, break once the
collector is full and the optimistic bound cannot beat the worst retained
sum, otherwise close with the best-fit locator and offer. -/
def innerLoopP (ctx : Ctx) (Z : List Item) (maxZ : ℚ) (pre : List Item) (base : ℚ) :
    List Item → TKState → TKState
  | [], s => s
  | y :: ys, s =>
    let part := qadd base y.area
    if ctx.targetNum < part then innerLoopP ctx Z maxZ pre base ys s
    else if ctx.topK ≤ s.topList.length ∧ qadd part maxZ ≤ minKeep s.topList then s
    else
      innerLoopP ctx Z maxZ pre base ys
        (match pickBestUnderOrEqual Z (qsub ctx.targetNum part) with
         | some z => tryCollect ctx s (pre ++ [y, z]) (qadd part z.area)
         | none => s)

/-- The same inner loop without the early break: the exhaustive enumeration
in the same descending order. -/
def innerLoopE (ctx : Ctx) (Z : List Item) (maxZ : ℚ) (pre : List Item) (base : ℚ) :
    List Item → TKState → TKState
  | [], s => s
  | y :: ys, s =>
    let part := qadd base y.area
    if ctx.targetNum < part then innerLoopE ctx Z maxZ pre base ys s
    else
      innerLoopE ctx Z maxZ pre base ys
        (match pickBestUnderOrEqual Z (qsub ctx.targetNum part) with
         | some z => tryCollect ctx s (pre ++ [y, z]) (qadd part z.area)
         | none => s)

/-- The outer loop of the 3-item search: a over group A descending, b over
group B descending with the pruning break, closing on group C. -/
def loop3P (ctx : Ctx) (C : List Item) (maxC : ℚ) (Bdesc : List Item) :
    List Item → TKState → TKState
  | [], s => s
  | a :: as, s => loop3P ctx C maxC Bdesc as (innerLoopP ctx C maxC [a] a.area Bdesc s)

/-- The 3-item outer loop without pruning. -/
def loop3E (ctx : Ctx) (C : List Item) (maxC : ℚ) (Bdesc : List Item) :
    List Item → TKState → TKState
  | [], s => s
  | a :: as, s => loop3E ctx C maxC Bdesc as (innerLoopE ctx C maxC [a] a.area Bdesc s)

/-- All ordered pairs (X[i], X[j]) with i > j, i descending then j
descending, read off a descending copy of the group: exactly the pair order
of enumFour. -/
def offDiag : List Item → List (Item × Item)
  | [] => []
  | x :: xs => (xs.map fun x2 => (x, x2)) ++ offDiag xs

/-- The pair loop of enumFour: skip over-budget pairs, then run the pruned
inner loop over Y descending. -/
def pairLoopP (ctx : Ctx) (Z : List Item) (maxZ : ℚ) (Ydesc : List Item) :
    List (Item × Item) → TKState → TKState
  | [], s => s
  | (xi, xj) :: ps, s =>
    let sumXX := qadd xi.area xj.area
    if ctx.targetNum < sumXX then pairLoopP ctx Z maxZ Ydesc ps s
    else pairLoopP ctx Z maxZ Ydesc ps (innerLoopP ctx Z maxZ [xi, xj] sumXX Ydesc s)

/-- The pair loop of enumFour without pruning. -/
def pairLoopE (ctx : Ctx) (Z : List Item) (maxZ : ℚ) (Ydesc : List Item) :
    List (Item × Item) → TKState → TKState
  | [], s => s
  | (xi, xj) :: ps, s =>
    let sumXX := qadd xi.area xj.area
    if ctx.targetNum < sumXX then pairLoopE ctx Z maxZ Ydesc ps s
    else pairLoopE ctx Z maxZ Ydesc ps (innerLoopE ctx Z maxZ [xi, xj] sumXX Ydesc s)

/-- enumFour of the pruned solver: X is the duplicated category, Y the free
category, Z the closing category. -/
def enumFourP (ctx : Ctx) (X Y Z : List Item) (s : TKState) : TKState :=
  pairLoopP ctx Z (maxAreaVal Z) Y.reverse (offDiag X.reverse) s

/-- enumFour without pruning. -/
def enumFourE (ctx : Ctx) (X Y Z : List Item) (s : TKState) : TKState :=
  pairLoopE ctx Z (maxAreaVal Z) Y.reverse (offDiag X.reverse) s

/-- The full enumeration of the pruned solver: 3-item search, then the three
duplicated-category 4-item searches. -/
def searchP (ctx : Ctx) (byA byB byC : List Item) : TKState :=
  let s1 := loop3P ctx byC (maxAreaVal byC) byB.reverse byA.reverse ⟨[], ∅⟩
  let s2 := enumFourP ctx byA byB byC s1
  let s3 := enumFourP ctx byB byA byC s2
  enumFourP ctx byC byA byB s3

/-- The full enumeration without pruning, in the same order. -/
def searchE (ctx : Ctx) (byA byB byC : List Item) : TKState :=
  let s1 := loop3E ctx byC (maxAreaVal byC) byB.reverse byA.reverse ⟨[], ∅⟩
  let s2 := enumFourE ctx byA byB byC s1
  let s3 := enumFourE ctx byB byA byC s2
  enumFourE ctx byC byA byB s3

/-- One category group of the solver: filter and normalize the candidates,
keep one type, sort ascending by area (stable), then drop items whose area
alone exceeds the target. -/
def eligibleGroup (candidates : List RawItem) (fileAName fileBName : String)
    (target : ℚ) (t : Char) : List Item :=
  (List.insertionSort areaLE
      ((candidates.filterMap (parseCandidate fileAName fileBName)).filter fun x => x.ty == t)).filter
    fun x => decide (x.area ≤ target)

/-- Truthiness of an optional display string in JS (undefined and the empty
string are falsy). -/
def optTruthy : Option String → Bool
  | none => false
  | some s => !(s == "")

/-- JS String.prototype.trim on a Lean string. -/
def trimStr (s : String) : String := String.mk (trimList s.toList)

/-- The label of one picked item in the output formatting of the pruned
bestTopKCombos. -/
def fmtPick (ctx : Ctx) (x : Item) : ℚ × String :=
  if x.srcFile == ctx.fileBName then
    let parts : List String :=
      (if optTruthy x.community then [trimStr (x.community.getD "")] else []) ++
      (if optTruthy x.buildingNo then [trimStr (x.buildingNo.getD "") ++ "幢"] else []) ++
      (if optTruthy x.doorNo then [trimStr (x.doorNo.getD "") ++ "号"] else []) ++
      (if optTruthy x.roomNo then [trimStr (x.roomNo.getD "") ++ "室"] else [])
    if parts.isEmpty then (x.area, String.singleton x.ty ++ "(现房)")
    else (x.area, "(" ++ String.intercalate " " parts ++ ")")
  else
    let extra :=
      if optTruthy x.buildingNo || optTruthy x.doorNo || optTruthy x.roomNo then
        (if optTruthy x.buildingNo then " " ++ trimStr (x.buildingNo.getD "") ++ "幢" else "") ++
        (if optTruthy x.doorNo then " " ++ trimStr (x.doorNo.getD "") ++ "号" else "") ++
        (if optTruthy x.roomNo then " " ++ trimStr (x.roomNo.getD "") ++ "室" else "")
      else ""
    (x.area, String.singleton x.ty ++ "(期房)" ++ extra)

/-- JS Number(x.toFixed(6)): round to six decimal places, ties toward the
larger value. -/
def round6 (x : ℚ) : ℚ := mkRat (qfloor (qadd (qmul x 1000000) (mkRat 1 2))) 1000000

/-- One result row of the output: result list, 兑换面积, 目标面积, 浪费面积. -/
structure Output where
  result : List (ℚ × String)
  sumFixed : ℚ
  targetArea : ℚ
  gap : ℚ
deriving DecidableEq

/-- The output formatting of one retained entry. -/
def formatEntry (ctx : Ctx) (e : Entry) : Output :=
  let sumFixed := round6 e.sum
  ⟨e.picked.map (fmtPick ctx), sumFixed, ctx.targetNum, round6 (qsub ctx.targetNum sumFixed)⟩

/-- The pruned bestTopKCombos of src/solver.js (the second, current
version): normalize topK, build the three groups, short-circuit on an empty
group, enumerate, and format the retained Top-K entries. -/
def bestTopKCombos (candidates : List RawItem) (target : ℚ) (fileAName fileBName : String)
    (topKRaw : JNum) (disallowDominant : Bool) (dominantMoreThan othersLessThan : JNum) :
    List Output :=
  let K := clampK topKRaw
  let byA := eligibleGroup candidates fileAName fileBName target 'A'
  let byB := eligibleGroup candidates fileAName fileBName target 'B'
  let byC := eligibleGroup candidates fileAName fileBName target 'C'
  if byA.isEmpty ∨ byB.isEmpty ∨ byC.isEmpty then []
  else
    let ctx : Ctx :=
      ⟨target, fileAName, fileBName, K, disallowDominant, dominantMoreThan, othersLessThan⟩
    (searchP ctx byA byB byC).topList.map (formatEntry ctx)

/-- bestTopKCombos with every early break removed: the exhaustive
enumeration in the same descending order. -/
def bestTopKCombosNoBreak (candidates : List RawItem) (target : ℚ) (fileAName fileBName : String)
    (topKRaw : JNum) (disallowDominant : Bool) (dominantMoreThan othersLessThan : JNum) :
    List Output :=
  let K := clampK topKRaw
  let byA := eligibleGroup candidates fileAName fileBName target 'A'
  let byB := eligibleGroup candidates fileAName fileBName target 'B'
  let byC := eligibleGroup candidates fileAName fileBName target 'C'
  if byA.isEmpty ∨ byB.isEmpty ∨ byC.isEmpty then []
  else
    let ctx : Ctx :=
      ⟨target, fileAName, fileBName, K, disallowDominant, dominantMoreThan, othersLessThan⟩
    (searchE ctx byA byB byC).topList.map (formatEntry ctx)

/-- Gift area normalization of server.js handleSolve: non-finite becomes 0,
and any value outside 0, 15, 30 becomes 0. -/
def normGift (g : JNum) : ℚ :=
  match g with
  | .nan => 0
  | .fin q => if q = 0 ∨ q = 15 ∨ q = 30 then q else 0

/-- server.js handleSolve, reduced to its decision logic: validate the
target (finite and positive, otherwise an immediate InvalidInput response
with no computation), add the gift area, and run the search; every other
parameter, topK included, is forwarded without validation. -/
def handleSolve (target : JNum) (giftArea : JNum) (topKRaw : JNum)
    (candidates : List RawItem) (fileAName fileBName : String)
    (disallowDominant : Bool) (dominantMoreThan othersLessThan : JNum) :
    Except String (List Output) :=
  match target with
  | .nan => .error "target 参数无效（需为正数）"
  | .fin t =>
    if t ≤ 0 then .error "target 参数无效（需为正数）"
    else
      .ok (bestTopKCombos candidates (qadd t (normGift giftArea)) fileAName fileBName topKRaw
        disallowDominant dominantMoreThan othersLessThan)

/-- Shorthand constructor for concrete items in witnesses: an item with no
display metadata. -/
def wItem (a : ℚ) (t : Char) (src : String) : Item := ⟨a, t, src, none, none, none, none⟩

/-- Shorthand constructor for concrete raw candidates in witnesses. -/
def wRaw (a : ℚ) (t : String) (src : String) : RawItem :=
  ⟨.fin a, .str t, src, none, none, none, none⟩

/-- Concrete context with the anti-dominance rule enabled,
dominantMoreThan = 100 and othersLessThan = 70 (Scenario D of the spec). -/
def ctxC7on : Ctx := ⟨200, "期房", "现房", 10, true, .fin 100, .fin 70⟩

/-- The same context with the anti-dominance rule disabled. -/
def ctxC7off : Ctx := ⟨200, "期房", "现房", 10, false, .fin 100, .fin 70⟩

/-- The Scenario D combination with areas 120, 30, 20, covering A, B, C and
containing one item from the must-include source. -/
def pickedC7 : List Item := [wItem 120 'A' "期房", wItem 30 'B' "现房", wItem 20 'C' "期房"]

/-- A candidate pool with no category-B item at all. -/
def candsC5 : List RawItem := [wRaw 10 "A" "期房", wRaw 8 "C" "现房"]

/-- The Scenario A pool: A items 10 and 20, one B item 5 from the
must-include source, C items 8 and 30; everything else from file A. -/
def cands8 : List RawItem :=
  [wRaw 10 "A" "期房", wRaw 20 "A" "期房", wRaw 5 "B" "现房",
   wRaw 8 "C" "期房", wRaw 30 "C" "期房"]

/-- The canonical identity of one entry (the key pushTopK deduplicates by). -/
def entryKey (e : Entry) : Multiset (ℚ × Char × String) := makeKey e.picked

/-- The keys of the retained entries, in list order. -/
def keysOf (l : List Entry) : List (Multiset (ℚ × Char × String)) := l.map entryKey

/-- The exact sum of the areas of a pick list; an entry is consistent when
its sum field equals this (which is what every tryCollect call site passes,
up to rational associativity). -/
def sumAreas (picked : List Item) : ℚ := (picked.map Item.area).sum

/-- The structural invariant of the collector state: the list is sorted
descending by sum, holds at most K entries with pairwise distinct keys, and
the seen-key set is exactly the key set of the list. -/
def Good (K : ℕ) (s : TKState) : Prop :=
  List.Sorted sumGE s.topList ∧ s.topList.length ≤ K ∧
    (keysOf s.topList).Nodup ∧ s.seenKeys = (keysOf s.topList).toFinset

/-- Folding a sequence of offers into the empty collector. -/
def runOffers (cs : List Entry) (K : ℕ) : TKState :=
  cs.foldl (fun s c => pushTopK s c K) ⟨[], ∅⟩

/-- The full collector invariant relative to the offers made so far: the
state is Good, every retained entry was offered, and any offered candidate
whose key is not retained lost against a full list whose worst sum is at
least the candidate's. -/
def TopKInv (K : ℕ) (offered : List Entry) (s : TKState) : Prop :=
  Good K s ∧ (∀ e ∈ s.topList, e ∈ offered) ∧
    ∀ c ∈ offered, entryKey c ∉ s.seenKeys →
      s.topList.length = K ∧ c.sum ≤ minKeep s.topList

/-- The per-entry facts maintained through the enumeration loops: the sum
fits the budget and at most one picked item is a large file-A item. -/
def EntryOk (ctx : Ctx) (e : Entry) : Prop :=
  e.sum ≤ ctx.targetNum ∧ largeQCount ctx e.picked ≤ 1

/-- Concrete entries for the collector witness. -/
def wE1 : Entry := ⟨30, [wItem 30 'A' "现房"]⟩

/-- Concrete entries for the collector witness. -/
def wE2 : Entry := ⟨20, [wItem 20 'B' "现房"]⟩

/-- The first Scenario A output row (sum 33). -/
def wOut33 : Output := ⟨[(20, "A(期房)"), (5, "B(现房)"), (8, "C(期房)")], 33, 40, 7⟩

/-- A pool whose single valid combination contains one large file-A item. -/
def candsC10 : List RawItem := [wRaw 120 "A" "期房", wRaw 30 "B" "现房", wRaw 20 "C" "期房"]

/-- The output row of the candsC10 search. -/
def wOutC10 : Output := ⟨[(120, "A(期房)"), (30, "B(现房)"), (20, "C(期房)")], 170, 200, 30⟩

/-- The context of the candsC10 search. -/
def ctxC10 : Ctx := ⟨200, "期房", "现房", 10, false, .nan, .nan⟩

/-- A pick list with two large file-A items (areas 120 and 110). -/
def pickedC10bad : List Item :=
  [wItem 120 'A' "期房", wItem 110 'A' "期房", wItem 30 'B' "现房"]

/-! ## Theorems -/

theorem qadd_eq (a b : ℚ) : qadd a b = a + b := by
  rw [qadd, Rat.mkRat_eq_div]
  conv_rhs => rw [← Rat.num_div_den a, ← Rat.num_div_den b]
  rw [div_add_div _ _ (by exact_mod_cast a.den_nz) (by exact_mod_cast b.den_nz)]
  push_cast
  ring_nf

theorem qsub_eq (a b : ℚ) : qsub a b = a - b := by
  rw [qsub, Rat.mkRat_eq_div]
  conv_rhs => rw [← Rat.num_div_den a, ← Rat.num_div_den b]
  rw [div_sub_div _ _ (by exact_mod_cast a.den_nz) (by exact_mod_cast b.den_nz)]
  push_cast
  ring_nf

theorem qmul_eq (a b : ℚ) : qmul a b = a * b := by
  rw [qmul, Rat.mkRat_eq_div]
  conv_rhs => rw [← Rat.num_div_den a, ← Rat.num_div_den b]
  rw [div_mul_div_comm]
  push_cast
  ring_nf

theorem qfloor_eq (a : ℚ) : qfloor a = ⌊a⌋ := by
  rw [qfloor, Rat.floor_def]

theorem round6_eq (x : ℚ) : round6 x = ((⌊x * 1000000 + 1 / 2⌋ : ℚ)) / 1000000 := by
  simp [round6, qfloor_eq, qadd_eq, qmul_eq, Rat.mkRat_eq_div]

/-! ### Correctness of the best-fit locator (src/bisect.js) -/

instance : IsRefl Item areaLE := ⟨fun x => le_refl x.area⟩

theorem bisectGo_spec (arr : List Item) (maxA : ℚ) (hs : List.Sorted areaLE arr) :
    ∀ (fuel lo hi : ℕ), hi - lo < fuel → hi ≤ arr.length → lo ≤ hi →
    (∀ i, i < lo → ∀ hil : i < arr.length, (arr.get ⟨i, hil⟩).area ≤ maxA) →
    (∀ i, hi ≤ i → ∀ hil : i < arr.length, maxA < (arr.get ⟨i, hil⟩).area) →
    (lo ≤ bisectGo arr maxA fuel lo hi ∧ bisectGo arr maxA fuel lo hi ≤ hi) ∧
    ∀ i, ∀ hil : i < arr.length,
      (i < bisectGo arr maxA fuel lo hi → (arr.get ⟨i, hil⟩).area ≤ maxA) ∧
      (bisectGo arr maxA fuel lo hi ≤ i → maxA < (arr.get ⟨i, hil⟩).area) := by
  intro fuel
  induction fuel with
  | zero => intro lo hi hf; omega
  | succ fuel ih =>
    intro lo hi hf hlen hlh hlo hhi
    by_cases hlt : lo < hi
    · have hmlt : (lo + hi) / 2 < hi := by omega
      have hmge : lo ≤ (lo + hi) / 2 := by omega
      have hmlen : (lo + hi) / 2 < arr.length := lt_of_lt_of_le hmlt hlen
      have hgetD : arr.getD ((lo + hi) / 2) default = arr.get ⟨(lo + hi) / 2, hmlen⟩ := by
        rw [List.getD_eq_getElem arr default hmlen, List.get_eq_getElem]
      by_cases hc : (arr.get ⟨(lo + hi) / 2, hmlen⟩).area ≤ maxA
      · have hstep : bisectGo arr maxA (fuel + 1) lo hi =
            bisectGo arr maxA fuel ((lo + hi) / 2 + 1) hi := by
          rw [bisectGo]
          simp only [if_pos hlt, hgetD, if_pos hc]
        rw [hstep]
        have h2 := ih ((lo + hi) / 2 + 1) hi (by omega) hlen (by omega) ?_ hhi
        · exact ⟨⟨le_trans hmge (le_trans (Nat.le_succ _) h2.1.1), h2.1.2⟩, h2.2⟩
        · intro i hi2 hil
          have hile : i ≤ (lo + hi) / 2 := by omega
          have := hs.rel_get_of_le (a := ⟨i, hil⟩) (b := ⟨(lo + hi) / 2, hmlen⟩)
            (Fin.mk_le_mk.mpr hile)
          exact le_trans this hc
      · have hstep : bisectGo arr maxA (fuel + 1) lo hi =
            bisectGo arr maxA fuel lo ((lo + hi) / 2) := by
          rw [bisectGo]
          simp only [if_pos hlt, hgetD, if_neg hc]
        rw [hstep]
        have h2 := ih lo ((lo + hi) / 2) (by omega) (le_of_lt hmlen) hmge hlo ?_
        · exact ⟨⟨h2.1.1, le_trans h2.1.2 (le_of_lt hmlt)⟩, h2.2⟩
        · intro i hi2 hil
          have := hs.rel_get_of_le (a := ⟨(lo + hi) / 2, hmlen⟩) (b := ⟨i, hil⟩)
            (Fin.mk_le_mk.mpr hi2)
          exact lt_of_lt_of_le (lt_of_not_le hc) this
    · have hstep : bisectGo arr maxA (fuel + 1) lo hi = lo := by
        rw [bisectGo]; simp only [if_neg hlt]
      rw [hstep]
      refine ⟨⟨le_refl lo, hlh⟩, fun i hil => ⟨fun h => hlo i h hil, fun h => hhi i (by omega) hil⟩⟩

theorem bisectRight_spec (arr : List Item) (maxA : ℚ) (hs : List.Sorted areaLE arr) :
    bisectRightByArea arr maxA ≤ arr.length ∧
    ∀ i, ∀ hil : i < arr.length,
      (i < bisectRightByArea arr maxA → (arr.get ⟨i, hil⟩).area ≤ maxA) ∧
      (bisectRightByArea arr maxA ≤ i → maxA < (arr.get ⟨i, hil⟩).area) := by
  have h := bisectGo_spec arr maxA hs (arr.length + 1) 0 arr.length (by omega) le_rfl
    (Nat.zero_le _) (by omega) (by intro i h1 h2; omega)
  exact ⟨h.1.2, h.2⟩

/-- Helper characterization of pickBestUnderOrEqual over a sorted group:
the claim C3 theorem and the enumeration proofs both use it. -/
theorem pick_spec (arr : List Item) (maxA : ℚ) (hs : List.Sorted areaLE arr) :
    (pickBestUnderOrEqual arr maxA = none ↔ ∀ x ∈ arr, maxA < x.area) ∧
    ∀ y, pickBestUnderOrEqual arr maxA = some y →
      y ∈ arr ∧ y.area ≤ maxA ∧ ∀ x ∈ arr, x.area ≤ maxA → x.area ≤ y.area := by
  obtain ⟨hle, hclass⟩ := bisectRight_spec arr maxA hs
  by_cases h0 : bisectRightByArea arr maxA = 0
  · have hval0 : pickBestUnderOrEqual arr maxA = none := by
      simp [pickBestUnderOrEqual, h0]
    rw [hval0]
    constructor
    · constructor
      · intro _ x hx
        obtain ⟨i, hil, rfl⟩ := List.mem_iff_get.mp hx
        exact (hclass i.1 i.2).2 (by omega)
      · intro _
        rfl
    · intro y hy
      exact absurd hy (by simp)
  · have h1 : 1 ≤ bisectRightByArea arr maxA := Nat.one_le_iff_ne_zero.mpr h0
    have hlt : bisectRightByArea arr maxA - 1 < arr.length := by omega
    have hget : arr[bisectRightByArea arr maxA - 1]? =
        some (arr.get ⟨bisectRightByArea arr maxA - 1, hlt⟩) := by
      rw [List.getElem?_eq_getElem hlt, List.get_eq_getElem]
    have hval : pickBestUnderOrEqual arr maxA =
        some (arr.get ⟨bisectRightByArea arr maxA - 1, hlt⟩) := by
      simp only [pickBestUnderOrEqual, if_neg h0, hget]
    have hmem : arr.get ⟨bisectRightByArea arr maxA - 1, hlt⟩ ∈ arr := List.get_mem arr _ _
    have harea : (arr.get ⟨bisectRightByArea arr maxA - 1, hlt⟩).area ≤ maxA :=
      (hclass _ hlt).1 (by omega)
    constructor
    · rw [hval]
      simp only [reduceCtorEq, false_iff, not_forall]
      exact ⟨_, hmem, not_lt.mpr harea⟩
    · intro y hy
      rw [hval] at hy
      obtain rfl := Option.some_injective _ hy
      refine ⟨hmem, harea, ?_⟩
      intro x hx hxle
      obtain ⟨i, hil, rfl⟩ := List.mem_iff_get.mp hx
      by_cases hcmp : i.1 < bisectRightByArea arr maxA
      · have : i.1 ≤ bisectRightByArea arr maxA - 1 := by omega
        have := hs.rel_get_of_le (a := i) (b := ⟨bisectRightByArea arr maxA - 1, hlt⟩)
          (Fin.mk_le_mk.mpr (by simpa using this))
        simpa using this
      · exact absurd ((hclass i.1 i.2).2 (by omega) |>.trans_le (by simpa using hxle))
          (lt_irrefl _)

/-- Claim C3: on a size-ascending group, pickBestUnderOrEqual returns the
element with the largest area at most the residual r (area equal to r is a
valid pick), and returns null exactly when no element fits, including a
negative residual or an empty group. -/
theorem claim_C3 (arr : List Item) (r : ℚ) (hs : List.Sorted areaLE arr) :
    (∀ y, pickBestUnderOrEqual arr r = some y →
      y ∈ arr ∧ y.area ≤ r ∧ ∀ x ∈ arr, x.area ≤ r → x.area ≤ y.area) ∧
    (pickBestUnderOrEqual arr r = none ↔ ∀ x ∈ arr, ¬(x.area ≤ r)) := by
  obtain ⟨hnone, hsome⟩ := pick_spec arr r hs
  refine ⟨hsome, ?_⟩
  rw [hnone]
  constructor
  · intro h x hx
    exact not_le.mpr (h x hx)
  · intro h x hx
    exact not_le.mp (h x hx)

/-- Witness for claim C3 at a concrete sorted group and residual 8: the
boundary element of area exactly 8 is picked. -/
theorem claim_C3_witness :
    List.Sorted areaLE [wItem 5 'A' "期房", wItem 8 'A' "期房"] ∧
    pickBestUnderOrEqual [wItem 5 'A' "期房", wItem 8 'A' "期房"] 8 = some (wItem 8 'A' "期房") ∧
    ((∀ y, pickBestUnderOrEqual [wItem 5 'A' "期房", wItem 8 'A' "期房"] 8 = some y →
      y ∈ [wItem 5 'A' "期房", wItem 8 'A' "期房"] ∧ y.area ≤ 8 ∧
        ∀ x ∈ [wItem 5 'A' "期房", wItem 8 'A' "期房"], x.area ≤ 8 → x.area ≤ y.area) ∧
    (pickBestUnderOrEqual [wItem 5 'A' "期房", wItem 8 'A' "期房"] 8 = none ↔
      ∀ x ∈ [wItem 5 'A' "期房", wItem 8 'A' "期房"], ¬(x.area ≤ 8))) := by
  refine ⟨?_, ?_, claim_C3 _ 8 ?_⟩
  · decide
  · decide
  · decide

/-! ### The type normalizer (src/normalize.js) against spec 4.1 (claim C9) -/

theorem letterCanon_eq_alphaLookup (c : Char) : letterCanon c = alphaLookup c := by
  unfold letterCanon alphaLookup alphaPairs
  split_ifs with h1 h2 h3 h4
  · rcases h1 with h | h <;> subst h <;> rfl
  · rcases h2 with h | h <;> subst h <;> rfl
  · rcases h3 with h | h <;> subst h <;> rfl
  · rcases h4 with h | h <;> subst h <;> rfl
  · push_neg at h1 h2 h3 h4
    have e1 : (c == 'A') = false := beq_eq_false_iff_ne.mpr h1.1
    have e2 : (c == 'a') = false := beq_eq_false_iff_ne.mpr h1.2
    have e3 : (c == 'B') = false := beq_eq_false_iff_ne.mpr h2.1
    have e4 : (c == 'b') = false := beq_eq_false_iff_ne.mpr h2.2
    have e5 : (c == 'C') = false := beq_eq_false_iff_ne.mpr h3.1
    have e6 : (c == 'c') = false := beq_eq_false_iff_ne.mpr h3.2
    have e7 : (c == 'D') = false := beq_eq_false_iff_ne.mpr h4.1
    have e8 : (c == 'd') = false := beq_eq_false_iff_ne.mpr h4.2
    simp [List.lookup, e1, e2, e3, e4, e5, e6, e7, e8]

theorem matchTypePattern_eq_specTypeCore (l : List Char) :
    matchTypePattern l = specTypeCore l := by
  match l with
  | [] => rfl
  | [c] => simpa [matchTypePattern, specTypeCore] using letterCanon_eq_alphaLookup c
  | [c, suf] =>
    simp only [matchTypePattern, specTypeCore]
    split_ifs with h
    · exact letterCanon_eq_alphaLookup c
    · rfl
  | c1 :: c2 :: c3 :: rest => rfl

/-- Counterexample to claim C9 as stated: the input " A" contains an extra
character (a leading space), so by the claim normalizeType should yield the
unrecognized value, yet the code trims the input first and returns the
canonical letter. -/
theorem claim_C9_counterexample :
    normalizeType (JVal.str " A") = some 'A' ∧ specRecognize (JVal.str " A") = none := by
  constructor <;> decide

/-- Amended claim C9: normalizeType is a pure total function equal to the
spec 4.1 recognizer applied after trimming leading and trailing whitespace;
in particular non-strings still map to the unrecognized value. -/
theorem claim_C9 : ∀ v, normalizeType v = specRecognizeTrimmed v := by
  intro v
  cases v with
  | str s =>
    simp only [normalizeType, specRecognizeTrimmed]
    exact matchTypePattern_eq_specTypeCore _
  | nonString => rfl

/-! ### The business-rule filter (claims C7) and the empty-pool and
input-validation behavior (claims C5, C6) -/

/-- Claim C7: with the anti-dominance rule enabled and both thresholds
finite, any combination with exactly one area strictly above the dominant
threshold whose other areas are all strictly below the others threshold is
rejected by tryCollect (the state is unchanged, so nothing reaches the
collector); with the rule disabled or a threshold not configured, tryCollect
behaves exactly like the same collection step without the anti-dominance
branch. -/
theorem claim_C7 :
    (∀ (ctx : Ctx) (s : TKState) (picked : List Item) (sum : ℚ) (dmt olt : ℚ),
      ctx.disallowDominant = true →
      ctx.dominantMoreThan = JNum.fin dmt →
      ctx.othersLessThan = JNum.fin olt →
      ((picked.map Item.area).filter fun a => decide (dmt < a)).length = 1 →
      (∀ a ∈ (picked.map Item.area).filter fun a => decide (a ≤ dmt), a < olt) →
      tryCollect ctx s picked sum = s) ∧
    (∀ (ctx : Ctx) (s : TKState) (picked : List Item) (sum : ℚ),
      ctx.disallowDominant = false ∨ ctx.dominantMoreThan = JNum.nan ∨
        ctx.othersLessThan = JNum.nan →
      tryCollect ctx s picked sum = tryCollectNoDominance ctx s picked sum) := by
  constructor
  · intro ctx s picked sum dmt olt hdd hdmt holt hcount hall
    have hrej : dominantReject ctx picked = true := by
      simp only [dominantReject, hdd, hdmt, holt]
      rw [if_pos hcount]
      exact List.all_eq_true.mpr fun a ha => decide_eq_true (hall a ha)
    unfold tryCollect
    rw [hrej]
    split_ifs <;> simp_all
  · intro ctx s picked sum hdis
    obtain ⟨t, fa, fb, k, dd, dmt, olt⟩ := ctx
    dsimp only at hdis
    have hrej : dominantReject ⟨t, fa, fb, k, dd, dmt, olt⟩ picked = false := by
      cases dd <;> cases dmt <;> cases olt <;>
        first
        | rfl
        | (rcases hdis with h | h | h <;> simp_all)
    simp [tryCollect, tryCollectNoDominance, hrej]

/-- Witness for claim C7: the Scenario D combination with areas 120, 30, 20
is rejected under thresholds 100 and 70 although its sum 170 fits the target
200 and it contains an item of the must-include source; with the rule
disabled the step coincides with the rule-free step. -/
theorem claim_C7_witness :
    (ctxC7on.disallowDominant = true ∧
      ((pickedC7.map Item.area).filter fun a => decide ((100 : ℚ) < a)).length = 1 ∧
      (∀ a ∈ (pickedC7.map Item.area).filter fun a => decide (a ≤ (100 : ℚ)), a < 70)) ∧
    tryCollect ctxC7on ⟨[], ∅⟩ pickedC7 170 = ⟨[], ∅⟩ ∧
    tryCollect ctxC7off ⟨[], ∅⟩ pickedC7 170 =
      tryCollectNoDominance ctxC7off ⟨[], ∅⟩ pickedC7 170 :=
  ⟨⟨by decide, by decide, by decide⟩,
    claim_C7.1 ctxC7on ⟨[], ∅⟩ pickedC7 170 100 70 rfl rfl rfl (by decide) (by decide),
    claim_C7.2 ctxC7off ⟨[], ∅⟩ pickedC7 170 (Or.inl rfl)⟩

/-- Claim C5: when any of the three groups is empty after filtering and
normalization (the area-bound filter included), the search returns the empty
result list; in this shallow embedding the function returns a value rather
than raising, so the outcome is a normal one, and the definition of
bestTopKCombos returns at the guard before any enumeration loop runs. -/
theorem claim_C5 (candidates : List RawItem) (target : ℚ) (fA fB : String)
    (topKRaw : JNum) (dd : Bool) (dmt olt : JNum)
    (h : eligibleGroup candidates fA fB target 'A' = [] ∨
      eligibleGroup candidates fA fB target 'B' = [] ∨
      eligibleGroup candidates fA fB target 'C' = []) :
    bestTopKCombos candidates target fA fB topKRaw dd dmt olt = [] := by
  unfold bestTopKCombos
  rcases h with h | h | h <;> simp [h]

/-- Witness for claim C5: a pool without any B-category item yields the
empty result list. -/
theorem claim_C5_witness :
    eligibleGroup candsC5 "期房" "现房" 40 'B' = [] ∧
    bestTopKCombos candsC5 40 "期房" "现房" (.fin 10) false .nan .nan = [] :=
  ⟨by decide,
    claim_C5 candsC5 40 "期房" "现房" (.fin 10) false .nan .nan (Or.inr (Or.inl (by decide)))⟩

/-- Counterexample to claim C6 as stated: a call with a perfectly valid
target 40 but K = 0 < 1 returns a normal (non-error) outcome — the solver
silently clamps K to 1 — although the claim promises an immediate
InvalidInput error for K < 1. -/
theorem claim_C6_counterexample :
    handleSolve (.fin 40) (.fin 0) (.fin 0) [] "期房" "现房" false .nan .nan =
      .ok [] := by
  rfl

/-- Amended claim C6: a target that is not a finite positive number is
rejected immediately with the InvalidInput response and no search runs; a
valid target always produces a normal result regardless of K, because a K
below 1 raises no error and is instead normalized to 1. -/
theorem claim_C6 :
    (∀ gift k cands fA fB dd dmt olt,
      handleSolve .nan gift k cands fA fB dd dmt olt =
        .error "target 参数无效（需为正数）") ∧
    (∀ t : ℚ, t ≤ 0 → ∀ gift k cands fA fB dd dmt olt,
      handleSolve (.fin t) gift k cands fA fB dd dmt olt =
        .error "target 参数无效（需为正数）") ∧
    (∀ t : ℚ, 0 < t → ∀ gift k cands fA fB dd dmt olt,
      handleSolve (.fin t) gift k cands fA fB dd dmt olt =
        .ok (bestTopKCombos cands (qadd t (normGift gift)) fA fB k dd dmt olt)) ∧
    (∀ q : ℚ, q < 1 → clampK (.fin q) = 1) := by
  refine ⟨fun _ _ _ _ _ _ _ _ => rfl, ?_, ?_, ?_⟩
  · intro t ht gift k cands fA fB dd dmt olt
    simp [handleSolve, ht]
  · intro t ht gift k cands fA fB dd dmt olt
    simp [handleSolve, not_le.mpr ht]
  · intro q hq
    simp only [clampK]
    split_ifs with h
    · rfl
    · have hfl : qfloor q < 1 := by
        rw [qfloor_eq]
        exact Int.floor_lt.mpr (by exact_mod_cast hq)
      have hmax : max 1 (qfloor q) = 1 := by omega
      rw [hmax]
      rfl

/-- Witness for the amended claim C6: target 0 errors, target 40 with K = 0
returns a normal result, and K = 0 is normalized to 1. -/
theorem claim_C6_witness :
    ((0 : ℚ) ≤ 0 ∧ (0 : ℚ) < 40 ∧ (0 : ℚ) < 1) ∧
    handleSolve (.fin 0) (.fin 0) (.fin 10) [] "期房" "现房" false .nan .nan =
      .error "target 参数无效（需为正数）" ∧
    handleSolve (.fin 40) (.fin 0) (.fin 0) [wRaw 10 "A" "期房"] "期房" "现房" false .nan .nan =
      .ok (bestTopKCombos [wRaw 10 "A" "期房"] (qadd 40 (normGift (.fin 0))) "期房" "现房"
        (.fin 0) false .nan .nan) ∧
    clampK (.fin 0) = 1 :=
  ⟨⟨by decide, by decide, by decide⟩,
    claim_C6.2.1 0 (by decide) (.fin 0) (.fin 10) [] "期房" "现房" false .nan .nan,
    claim_C6.2.2.1 40 (by decide) (.fin 0) (.fin 0) [wRaw 10 "A" "期房"] "期房" "现房" false
      .nan .nan,
    claim_C6.2.2.2 0 (by decide)⟩

/-! ### Scenario A (claim C8) -/

/-- Counterexample to claim C8 as stated: on the Scenario A input the search
returns two results, not exactly one — besides the advertised combination
20, 5, 8 with sum 33, the enumeration also finds the valid combination
10, 5, 8 with sum 23 (for the outer pair 10 and 5 the best closing C item
under the residual 25 is 8), which meets every constraint. -/
theorem claim_C8_counterexample :
    (bestTopKCombos cands8 40 "期房" "现房" (.fin 5) false .nan .nan).length = 2 := by
  decide

/-- Amended claim C8: on the Scenario A input the search returns exactly two
results, sorted by sum descending: the combination 20, 5, 8 with sum 33 and
gap 7, followed by the combination 10, 5, 8 with sum 23 and gap 17. -/
theorem claim_C8 :
    bestTopKCombos cands8 40 "期房" "现房" (.fin 5) false .nan .nan =
      [⟨[(20, "A(期房)"), (5, "B(现房)"), (8, "C(期房)")], 33, 40, 7⟩,
       ⟨[(10, "A(期房)"), (5, "B(现房)"), (8, "C(期房)")], 23, 40, 17⟩] := by
  decide

/-! ### Structure of the bounded Top-K collector (src/topk.js) -/

theorem minKeep_cons_cons (a b : Entry) (t : List Entry) :
    minKeep (a :: b :: t) = minKeep (b :: t) := by
  simp [minKeep, List.getLast?_cons_cons]

theorem minKeep_le_of_sorted :
    ∀ (l : List Entry), List.Sorted sumGE l → ∀ e ∈ l, minKeep l ≤ e.sum := by
  intro l
  induction l with
  | nil => intro _ e he; cases he
  | cons a t ih =>
    intro hs e he
    obtain ⟨hrel, htail⟩ := List.sorted_cons.mp hs
    cases t with
    | nil =>
      rcases List.mem_singleton.mp he with rfl
      simp [minKeep]
    | cons b t2 =>
      rw [minKeep_cons_cons]
      rcases List.mem_cons.mp he with rfl | he2
      · exact le_trans (ih htail b (List.mem_cons_self b t2)) (hrel b (List.mem_cons_self b t2))
      · exact ih htail e he2

theorem minKeep_eq_getLast {l : List Entry} (h : l ≠ []) :
    minKeep l = (l.getLast h).sum := by
  simp [minKeep, List.getLast?_eq_getLast_of_ne_nil h]

theorem minKeep_mem {l : List Entry} (h : l ≠ []) : ∃ e ∈ l, minKeep l = e.sum :=
  ⟨l.getLast h, List.getLast_mem h, minKeep_eq_getLast h⟩

theorem pushTopK_dedup {s : TKState} {cand : Entry} {K : ℕ}
    (h : makeKey cand.picked ∈ s.seenKeys) : pushTopK s cand K = s := by
  simp [pushTopK, h]

theorem pushTopK_eq_of_not_mem {s : TKState} {cand : Entry} {K : ℕ}
    (hmem : makeKey cand.picked ∉ s.seenKeys) :
    pushTopK s cand K =
      if K < (List.insertionSort sumGE (s.topList ++ [cand])).length then
        ⟨(List.insertionSort sumGE (s.topList ++ [cand])).dropLast,
          (insert (makeKey cand.picked) s.seenKeys).erase
            (makeKey (((List.insertionSort sumGE (s.topList ++ [cand])).getLastD cand).picked))⟩
      else
        ⟨List.insertionSort sumGE (s.topList ++ [cand]),
          insert (makeKey cand.picked) s.seenKeys⟩ := by
  simp [pushTopK, hmem]

theorem pushTopK_entries {s : TKState} {cand : Entry} {K : ℕ} :
    ∀ e ∈ (pushTopK s cand K).topList, e ∈ s.topList ∨ e = cand := by
  intro e he
  by_cases hmem : makeKey cand.picked ∈ s.seenKeys
  · rw [pushTopK_dedup hmem] at he
    exact Or.inl he
  · rw [pushTopK_eq_of_not_mem hmem] at he
    have hsub : e ∈ List.insertionSort sumGE (s.topList ++ [cand]) := by
      split at he
      · exact (List.dropLast_sublist _).subset he
      · exact he
    have := (List.perm_insertionSort sumGE (s.topList ++ [cand])).subset hsub
    rcases List.mem_append.mp this with h | h
    · exact Or.inl h
    · exact Or.inr (List.mem_singleton.mp h)

theorem pushTopK_good {K : ℕ} {s : TKState} {cand : Entry} (hg : Good K s) :
    Good K (pushTopK s cand K) := by
  obtain ⟨hsort, hlen, hnodup, hseen⟩ := hg
  by_cases hmem : makeKey cand.picked ∈ s.seenKeys
  · rw [pushTopK_dedup hmem]
    exact ⟨hsort, hlen, hnodup, hseen⟩
  · have hfresh : entryKey cand ∉ keysOf s.topList := by
      intro hcon
      exact hmem (by rw [hseen]; exact List.mem_toFinset.mpr hcon)
    rw [pushTopK_eq_of_not_mem hmem]
    set l := List.insertionSort sumGE (s.topList ++ [cand]) with hldef
    have hperm : List.Perm l (s.topList ++ [cand]) := List.perm_insertionSort _ _
    have hsortl : List.Sorted sumGE l := List.sorted_insertionSort _ _
    have hlength : l.length = s.topList.length + 1 := by
      rw [hperm.length_eq, List.length_append, List.length_singleton]
    have hkperm : List.Perm (keysOf l) (keysOf s.topList ++ [entryKey cand]) := by
      simpa [keysOf, List.map_append] using hperm.map entryKey
    have hknodup : (keysOf l).Nodup := by
      rw [hkperm.nodup_iff]
      exact List.nodup_append.mpr ⟨hnodup, List.nodup_singleton _, by simpa using hfresh⟩
    have hktof : (keysOf l).toFinset = insert (entryKey cand) s.seenKeys := by
      rw [List.toFinset_eq_of_perm _ _ hkperm, hseen]
      simp [List.toFinset_append, Finset.insert_eq, Finset.union_comm]
    by_cases hK2 : K < l.length
    · rw [if_pos hK2]
      have hne : l ≠ [] := List.ne_nil_of_length_pos (by omega)
      have hgld : l.getLastD cand = l.getLast hne := by
        rw [List.getLastD_eq_getLast?, List.getLast?_eq_getLast_of_ne_nil hne]
        rfl
      have hsplit : l.dropLast ++ [l.getLast hne] = l := List.dropLast_append_getLast hne
      have hkeyssplit : keysOf l = keysOf l.dropLast ++ [entryKey (l.getLast hne)] := by
        conv_lhs => rw [keysOf, ← hsplit]
        simp [keysOf, entryKey]
      have hlastfresh : entryKey (l.getLast hne) ∉ keysOf l.dropLast := by
        have := hknodup
        rw [hkeyssplit] at this
        have hd := (List.nodup_append.mp this).2.2
        intro hcon
        exact hd hcon (List.mem_singleton_self _)
      refine ⟨?_, ?_, ?_, ?_⟩
      · exact hsortl.sublist (List.dropLast_sublist l)
      · simpa [List.length_dropLast, hlength] using hlen
      · exact hknodup.sublist ((List.dropLast_sublist l).map entryKey)
      · show (insert (makeKey cand.picked) s.seenKeys).erase (makeKey ((l.getLastD cand).picked)) =
          (keysOf l.dropLast).toFinset
        have h1 : makeKey ((l.getLastD cand).picked) = entryKey (l.getLast hne) := by
          rw [hgld]; rfl
        have h2 : insert (makeKey cand.picked) s.seenKeys = (keysOf l).toFinset := hktof.symm
        have h3 : (keysOf l).toFinset =
            insert (entryKey (l.getLast hne)) (keysOf l.dropLast).toFinset := by
          rw [hkeyssplit]
          simp [List.toFinset_append, Finset.insert_eq, Finset.union_comm]
        rw [h1, h2, h3, Finset.erase_insert (by simpa [List.mem_toFinset] using hlastfresh)]
    · rw [if_neg hK2]
      exact ⟨hsortl, (by omega : l.length ≤ K), hknodup, hktof.symm⟩

theorem pushTopK_noop {K : ℕ} {s : TKState} {cand : Entry} (hg : Good K s)
    (hfull : s.topList.length = K) (hle : cand.sum ≤ minKeep s.topList) :
    pushTopK s cand K = s := by
  obtain ⟨hsort, hlen, hnodup, hseen⟩ := hg
  by_cases hmem : makeKey cand.picked ∈ s.seenKeys
  · exact pushTopK_dedup hmem
  · have hall : ∀ e ∈ s.topList, cand.sum ≤ e.sum := fun e he =>
      le_trans hle (minKeep_le_of_sorted _ hsort e he)
    have hsorted2 : List.Sorted sumGE (s.topList ++ [cand]) := by
      refine List.pairwise_append.mpr ⟨hsort, List.sorted_singleton _, fun a ha b hb => ?_⟩
      rw [List.mem_singleton.mp hb]
      exact hall a ha
    have hl : List.insertionSort sumGE (s.topList ++ [cand]) = s.topList ++ [cand] :=
      hsorted2.insertionSort_eq
    rw [pushTopK_eq_of_not_mem hmem, hl]
    rw [if_pos (by simp [hfull])]
    have hgld : (s.topList ++ [cand]).getLastD cand = cand := by
      rw [List.getLastD_eq_getLast?, List.getLast?_concat]
      rfl
    obtain ⟨tl, seen⟩ := s
    simp only at hgld hmem ⊢
    rw [hgld, List.dropLast_concat, Finset.erase_insert hmem]

theorem sumAreas_of_key_eq {p1 p2 : List Item} (h : makeKey p1 = makeKey p2) :
    sumAreas p1 = sumAreas p2 := by
  have e1 : ∀ p : List Item,
      sumAreas p = (Multiset.map (fun t : ℚ × Char × String => t.1) (makeKey p)).sum := by
    intro p
    show (List.map Item.area p).sum = _
    rw [makeKey, Multiset.map_coe, Multiset.sum_coe, List.map_map]
    rfl
  rw [e1, e1, h]

theorem pushTopK_full_step {K : ℕ} {s : TKState} {cand : Entry} (hg : Good K s)
    (hfull : s.topList.length = K) (hK : 1 ≤ K) :
    (pushTopK s cand K).topList.length = K ∧
    minKeep s.topList ≤ minKeep (pushTopK s cand K).topList := by
  by_cases hmem : makeKey cand.picked ∈ s.seenKeys
  · rw [pushTopK_dedup hmem]
    exact ⟨hfull, le_refl _⟩
  · have hcnotin : cand ∉ s.topList := fun hcin =>
      hmem (by rw [hg.2.2.2]; exact List.mem_toFinset.mpr (List.mem_map_of_mem entryKey hcin))
    rw [pushTopK_eq_of_not_mem hmem]
    set l := List.insertionSort sumGE (s.topList ++ [cand]) with hldef
    have hperm : List.Perm l (s.topList ++ [cand]) := List.perm_insertionSort _ _
    have hsortl : List.Sorted sumGE l := List.sorted_insertionSort _ _
    have hlength : l.length = K + 1 := by
      rw [hperm.length_eq, List.length_append, List.length_singleton, hfull]
    rw [if_pos (by omega)]
    have hne : l ≠ [] := List.ne_nil_of_length_pos (by omega)
    have hdlne : l.dropLast ≠ [] := by
      apply List.ne_nil_of_length_pos
      rw [List.length_dropLast]
      omega
    refine ⟨by simp [List.length_dropLast, hlength], ?_⟩
    obtain ⟨edl, hedlmem, hmkdl⟩ := minKeep_mem hdlne
    have hedl_l : edl ∈ l := (List.dropLast_sublist l).subset hedlmem
    have hminl : ∀ e2 ∈ l, (l.getLast hne).sum ≤ e2.sum := by
      have h2 := minKeep_le_of_sorted l hsortl
      rw [minKeep_eq_getLast hne] at h2
      exact h2
    show minKeep s.topList ≤ minKeep l.dropLast
    rw [hmkdl]
    rcases List.mem_append.mp (hperm.subset hedl_l) with hin | hin
    · exact minKeep_le_of_sorted _ hg.1 edl hin
    · have hedlc : edl = cand := List.mem_singleton.mp hin
      have hlast_l : l.getLast hne ∈ l := List.getLast_mem hne
      rcases List.mem_append.mp (hperm.subset hlast_l) with hlin | hlin
      · exact le_trans (minKeep_le_of_sorted _ hg.1 _ hlin) (hminl edl hedl_l)
      · exfalso
        have hlc : l.getLast hne = cand := List.mem_singleton.mp hlin
        have hcount : l.count cand = 1 := by
          rw [hperm.count_eq, List.count_append, List.count_singleton]
          simp [List.count_eq_zero_of_not_mem hcnotin]
        have hsplit : l.dropLast ++ [l.getLast hne] = l := List.dropLast_append_getLast hne
        have : 2 ≤ l.count cand := by
          rw [← hsplit, List.count_append]
          have h1 : 1 ≤ l.dropLast.count cand := by
            subst hedlc
            exact List.count_pos_iff.mpr hedlmem
          have h2 : 1 ≤ List.count cand [l.getLast hne] := by
            rw [hlc]
            simp
          omega
        omega

theorem pushTopK_evicted {K : ℕ} {s : TKState} {cand : Entry} :
    ∀ e ∈ s.topList, e ∉ (pushTopK s cand K).topList →
      (∀ e2 ∈ s.topList, e.sum ≤ e2.sum) ∧
      entryKey e ∉ (pushTopK s cand K).seenKeys := by
  intro e he hnot
  by_cases hmem : makeKey cand.picked ∈ s.seenKeys
  · rw [pushTopK_dedup hmem] at hnot
    exact absurd he hnot
  · have heq := pushTopK_eq_of_not_mem (K := K) hmem
    set l := List.insertionSort sumGE (s.topList ++ [cand]) with hldef
    have hperm : List.Perm l (s.topList ++ [cand]) := List.perm_insertionSort _ _
    have hsortl : List.Sorted sumGE l := List.sorted_insertionSort _ _
    have hel : e ∈ l := hperm.mem_iff.mpr (List.mem_append_left _ he)
    by_cases hK2 : K < l.length
    · rw [if_pos hK2] at heq
      rw [heq] at hnot ⊢
      simp only at hnot ⊢
      have hne : l ≠ [] := List.ne_nil_of_length_pos (by omega)
      have hgld : l.getLastD cand = l.getLast hne := by
        rw [List.getLastD_eq_getLast?, List.getLast?_eq_getLast_of_ne_nil hne]
        rfl
      have hsplit : l.dropLast ++ [l.getLast hne] = l := List.dropLast_append_getLast hne
      have helast : e = l.getLast hne := by
        rcases List.mem_append.mp (by rw [hsplit]; exact hel :
            e ∈ l.dropLast ++ [l.getLast hne]) with h | h
        · exact absurd h hnot
        · exact List.mem_singleton.mp h
      constructor
      · intro e2 he2
        have he2l : e2 ∈ l := hperm.mem_iff.mpr (List.mem_append_left _ he2)
        have h2 := minKeep_le_of_sorted l hsortl e2 he2l
        rw [minKeep_eq_getLast hne, ← helast] at h2
        exact h2
      · rw [hgld, ← helast]
        exact Finset.not_mem_erase _ _
    · rw [if_neg hK2] at heq
      rw [heq] at hnot
      simp only at hnot
      exact absurd hel hnot

theorem TopKInv_step {K : ℕ} (hK : 1 ≤ K) {offered : List Entry} {s : TKState} {c : Entry}
    (hinv : TopKInv K offered s)
    (hcons : ∀ e ∈ offered, e.sum = sumAreas e.picked) (hc : c.sum = sumAreas c.picked) :
    TopKInv K (offered ++ [c]) (pushTopK s c K) := by
  obtain ⟨hg, hment, htop⟩ := hinv
  have hgood2 : Good K (pushTopK s c K) := pushTopK_good hg
  refine ⟨hgood2, ?_, ?_⟩
  · intro e he
    rcases pushTopK_entries e he with h | rfl
    · exact List.mem_append_left _ (hment e h)
    · exact List.mem_append_right _ (List.mem_singleton_self _)
  · intro c2 hc2 hnot
    by_cases hmem : makeKey c.picked ∈ s.seenKeys
    · rw [pushTopK_dedup hmem] at hnot ⊢
      rcases List.mem_append.mp hc2 with h | h
      · exact htop c2 h hnot
      · exfalso
        apply hnot
        rw [List.mem_singleton.mp h]
        exact hmem
    · have heq0 := @pushTopK_eq_of_not_mem s c K hmem
      set l := List.insertionSort sumGE (s.topList ++ [c]) with hldef
      have hperm : List.Perm l (s.topList ++ [c]) := List.perm_insertionSort _ _
      have hsortl : List.Sorted sumGE l := List.sorted_insertionSort _ _
      have hlength : l.length = s.topList.length + 1 := by
        rw [hperm.length_eq, List.length_append, List.length_singleton]
      by_cases hK2 : K < l.length
      · -- eviction branch
        have hfull : s.topList.length = K := by
          have := hg.2.1
          omega
        obtain ⟨hlen2, hmono⟩ := pushTopK_full_step hg hfull hK
        rw [if_pos hK2] at heq0
        have hne : l ≠ [] := List.ne_nil_of_length_pos (by omega)
        have hgld : l.getLastD c = l.getLast hne := by
          rw [List.getLastD_eq_getLast?, List.getLast?_eq_getLast_of_ne_nil hne]
          rfl
        have hsplit : l.dropLast ++ [l.getLast hne] = l := List.dropLast_append_getLast hne
        have htl : (pushTopK s c K).topList = l.dropLast := by rw [heq0]
        have hlast_min : ∀ e2 ∈ l, (l.getLast hne).sum ≤ e2.sum := by
          have h2 := minKeep_le_of_sorted l hsortl
          rw [minKeep_eq_getLast hne] at h2
          exact h2
        have hlast_le_new : (l.getLast hne).sum ≤ minKeep (pushTopK s c K).topList := by
          have hdlne : l.dropLast ≠ [] := by
            apply List.ne_nil_of_length_pos
            rw [List.length_dropLast]
            omega
          obtain ⟨edl, hedlmem, hmkdl⟩ := minKeep_mem hdlne
          rw [htl, hmkdl]
          exact hlast_min edl ((List.dropLast_sublist l).subset hedlmem)
        refine ⟨hlen2, ?_⟩
        rcases List.mem_append.mp hc2 with hco | hcc
        · by_cases hseen2 : entryKey c2 ∈ s.seenKeys
          · -- the key was retained before the offer of c; it survives unless its
            -- carrier entry is exactly the evicted last element
            have hseen2' : entryKey c2 ∈ keysOf s.topList := by
              rw [hg.2.2.2] at hseen2
              exact List.mem_toFinset.mp hseen2
            obtain ⟨e0, he0, hkey⟩ := List.mem_map.mp hseen2'
            have he0l : e0 ∈ l := hperm.mem_iff.mpr (List.mem_append_left _ he0)
            have he0cases : e0 ∈ l.dropLast ∨ e0 = l.getLast hne := by
              have : e0 ∈ l.dropLast ++ [l.getLast hne] := by rw [hsplit]; exact he0l
              rcases List.mem_append.mp this with h | h
              · exact Or.inl h
              · exact Or.inr (List.mem_singleton.mp h)
            rcases he0cases with h | h
            · exfalso
              apply hnot
              rw [hgood2.2.2.2, htl]
              apply List.mem_toFinset.mpr
              rw [← hkey]
              exact List.mem_map_of_mem entryKey h
            · have hsum : c2.sum = e0.sum := by
                rw [hcons c2 hco, hcons e0 (hment e0 he0)]
                exact sumAreas_of_key_eq hkey.symm
              rw [hsum, h]
              exact hlast_le_new
          · have h2 := htop c2 hco hseen2
            exact le_trans h2.2 hmono
        · -- the new candidate itself: either it was immediately evicted, or it
          -- is retained and its key is present, contradicting hnot
          have hcc2 : c2 = c := List.mem_singleton.mp hcc
          subst hcc2
          by_cases hcl : c2 ∈ l.dropLast
          · exfalso
            apply hnot
            rw [hgood2.2.2.2, htl]
            exact List.mem_toFinset.mpr (List.mem_map_of_mem entryKey hcl)
          · have hcinl : c2 ∈ l := hperm.mem_iff.mpr
              (List.mem_append_right _ (List.mem_singleton_self _))
            have : c2 ∈ l.dropLast ∨ c2 = l.getLast hne := by
              have h3 : c2 ∈ l.dropLast ++ [l.getLast hne] := by rw [hsplit]; exact hcinl
              rcases List.mem_append.mp h3 with h | h
              · exact Or.inl h
              · exact Or.inr (List.mem_singleton.mp h)
            rcases this with h | h
            · exact absurd h hcl
            · have hsum2 : c2.sum = (l.getLast hne).sum := by rw [h]
              rw [hsum2]
              exact hlast_le_new
      · -- no eviction: the list was not full, so every offered key is retained
        rw [if_neg hK2] at heq0
        rcases List.mem_append.mp hc2 with hco | hcc
        · by_cases hseen2 : entryKey c2 ∈ s.seenKeys
          · exfalso
            apply hnot
            rw [heq0]
            exact Finset.mem_insert_of_mem hseen2
          · have h2 := htop c2 hco hseen2
            exfalso
            omega
        · exfalso
          apply hnot
          rw [heq0, List.mem_singleton.mp hcc]
          exact Finset.mem_insert_self _ _

theorem runOffers_append (cs : List Entry) (c : Entry) (K : ℕ) :
    runOffers (cs ++ [c]) K = pushTopK (runOffers cs K) c K := by
  simp [runOffers, List.foldl_append]

theorem runOffers_inv (K : ℕ) (hK : 1 ≤ K) :
    ∀ (cs : List Entry), (∀ c ∈ cs, c.sum = sumAreas c.picked) →
      TopKInv K cs (runOffers cs K) := by
  intro cs
  induction cs using List.reverseRecOn with
  | nil =>
    intro _
    refine ⟨⟨List.sorted_nil, by simp [runOffers], by simp [runOffers, keysOf], ?_⟩, ?_, ?_⟩
    · simp [runOffers, keysOf]
    · intro e he
      simp [runOffers] at he
    · intro c hc
      cases hc
  | append_singleton cs c ih =>
    intro hcons
    rw [runOffers_append]
    have hcons2 : ∀ e ∈ cs, e.sum = sumAreas e.picked := fun e he =>
      hcons e (List.mem_append_left _ he)
    exact TopKInv_step hK (ih hcons2) hcons2 (hcons c (List.mem_append_right _
      (List.mem_singleton_self _)))

/-- Claim C1: for every sequence of pushTopK calls starting from the empty
list and empty key set (with K at least 1, as the solver guarantees, and
each candidate's sum the sum of its picked areas, as every call site
passes), the final list holds at most K entries with pairwise distinct
canonical keys, sorted descending by sum; the retained entries all were
offered, and any offered candidate whose key is absent lost against a full
list whose smallest retained sum is at least the candidate's sum (so the
list holds the highest-sum distinct candidates offered so far); and every
eviction along the way removes a current smallest-sum entry and deletes its
key from the seen set. -/
theorem claim_C1 (K : ℕ) (hK : 1 ≤ K) (cs : List Entry)
    (hcons : ∀ c ∈ cs, c.sum = sumAreas c.picked) :
    (runOffers cs K).topList.length ≤ K ∧
    List.Sorted sumGE (runOffers cs K).topList ∧
    (keysOf (runOffers cs K).topList).Nodup ∧
    (∀ e ∈ (runOffers cs K).topList, e ∈ cs) ∧
    (∀ c ∈ cs, entryKey c ∉ (runOffers cs K).seenKeys →
      (runOffers cs K).topList.length = K ∧ c.sum ≤ minKeep (runOffers cs K).topList) ∧
    (∀ i, i < cs.length →
      ∀ e ∈ (runOffers (cs.take i) K).topList,
        e ∉ (runOffers (cs.take (i + 1)) K).topList →
          (∀ e2 ∈ (runOffers (cs.take i) K).topList, e.sum ≤ e2.sum) ∧
          entryKey e ∉ (runOffers (cs.take (i + 1)) K).seenKeys) := by
  obtain ⟨⟨hsort, hlen, hnodup, hseen⟩, hment, htop⟩ := runOffers_inv K hK cs hcons
  refine ⟨hlen, hsort, hnodup, hment, htop, ?_⟩
  intro i hi e he hnot
  have htake : cs.take (i + 1) = cs.take i ++ [cs.get ⟨i, hi⟩] := by
    rw [List.take_succ]
    congr 1
    rw [List.getElem?_eq_getElem hi]
    rfl
  rw [htake, runOffers_append] at hnot ⊢
  exact pushTopK_evicted e he hnot

/-- Witness for claim C1: two offers with K = 1; the conclusions are those
of the claim theorem at this concrete sequence. -/
theorem claim_C1_witness :
    (1 ≤ 1 ∧ (∀ c ∈ [wE1, wE2], c.sum = sumAreas c.picked)) ∧
    ((runOffers [wE1, wE2] 1).topList.length ≤ 1 ∧
    List.Sorted sumGE (runOffers [wE1, wE2] 1).topList ∧
    (keysOf (runOffers [wE1, wE2] 1).topList).Nodup ∧
    (∀ e ∈ (runOffers [wE1, wE2] 1).topList, e ∈ [wE1, wE2]) ∧
    (∀ c ∈ [wE1, wE2], entryKey c ∉ (runOffers [wE1, wE2] 1).seenKeys →
      (runOffers [wE1, wE2] 1).topList.length = 1 ∧
        c.sum ≤ minKeep (runOffers [wE1, wE2] 1).topList) ∧
    (∀ i, i < ([wE1, wE2] : List Entry).length →
      ∀ e ∈ (runOffers (([wE1, wE2] : List Entry).take i) 1).topList,
        e ∉ (runOffers (([wE1, wE2] : List Entry).take (i + 1)) 1).topList →
          (∀ e2 ∈ (runOffers (([wE1, wE2] : List Entry).take i) 1).topList, e.sum ≤ e2.sum) ∧
          entryKey e ∉ (runOffers (([wE1, wE2] : List Entry).take (i + 1)) 1).seenKeys)) :=
  ⟨⟨le_refl 1, by simp [wE1, wE2, wItem, sumAreas]⟩,
    claim_C1 1 (le_refl 1) [wE1, wE2] (by simp [wE1, wE2, wItem, sumAreas])⟩

/-! ### Per-entry facts carried through the enumeration (claims C2, C10) -/

theorem tryCollect_entries {ctx : Ctx} {s : TKState} {picked : List Item} {sum : ℚ} :
    ∀ e ∈ (tryCollect ctx s picked sum).topList,
      e ∈ s.topList ∨ (e = ⟨sum, picked⟩ ∧ EntryOk ctx ⟨sum, picked⟩) := by
  intro e he
  unfold tryCollect at he
  split_ifs at he with h1 h2 h3 h4
  · exact Or.inl he
  · exact Or.inl he
  · exact Or.inl he
  · exact Or.inl he
  · rcases pushTopK_entries e he with h | rfl
    · exact Or.inl h
    · exact Or.inr ⟨rfl, not_lt.mp h1, show largeQCount ctx picked ≤ 1 by omega⟩

theorem entries_ok_tryCollect {ctx : Ctx} {s : TKState} {picked : List Item} {sum : ℚ}
    (h : ∀ e ∈ s.topList, EntryOk ctx e) :
    ∀ e ∈ (tryCollect ctx s picked sum).topList, EntryOk ctx e := by
  intro e he
  rcases tryCollect_entries e he with h2 | ⟨rfl, h2⟩
  · exact h e h2
  · exact h2

theorem innerLoopP_entries {ctx : Ctx} {Z : List Item} {maxZ : ℚ} {pre : List Item} {base : ℚ} :
    ∀ (ys : List Item) (s : TKState), (∀ e ∈ s.topList, EntryOk ctx e) →
      ∀ e ∈ (innerLoopP ctx Z maxZ pre base ys s).topList, EntryOk ctx e := by
  intro ys
  induction ys with
  | nil => intro s h e he; exact h e he
  | cons y ys ih =>
    intro s h e he
    simp only [innerLoopP] at he
    split_ifs at he with h1 h2
    · exact ih s h e he
    · exact h e he
    · split at he
      · exact ih _ (entries_ok_tryCollect h) e he
      · exact ih s h e he

theorem loop3P_entries {ctx : Ctx} {C : List Item} {maxC : ℚ} {Bdesc : List Item} :
    ∀ (Adesc : List Item) (s : TKState), (∀ e ∈ s.topList, EntryOk ctx e) →
      ∀ e ∈ (loop3P ctx C maxC Bdesc Adesc s).topList, EntryOk ctx e := by
  intro Adesc
  induction Adesc with
  | nil => intro s h e he; exact h e he
  | cons a as ih =>
    intro s h e he
    simp only [loop3P] at he
    exact ih _ (innerLoopP_entries Bdesc s h) e he

theorem pairLoopP_entries {ctx : Ctx} {Z : List Item} {maxZ : ℚ} {Ydesc : List Item} :
    ∀ (ps : List (Item × Item)) (s : TKState), (∀ e ∈ s.topList, EntryOk ctx e) →
      ∀ e ∈ (pairLoopP ctx Z maxZ Ydesc ps s).topList, EntryOk ctx e := by
  intro ps
  induction ps with
  | nil => intro s h e he; exact h e he
  | cons p ps ih =>
    intro s h e he
    obtain ⟨xi, xj⟩ := p
    simp only [pairLoopP] at he
    split_ifs at he with h1
    · exact ih s h e he
    · exact ih _ (innerLoopP_entries Ydesc s h) e he

theorem searchP_entries (ctx : Ctx) (byA byB byC : List Item) :
    ∀ e ∈ (searchP ctx byA byB byC).topList, EntryOk ctx e := by
  unfold searchP enumFourP
  apply pairLoopP_entries
  apply pairLoopP_entries
  apply pairLoopP_entries
  apply loop3P_entries
  intro e he
  cases he

theorem round6_le (x : ℚ) : round6 x ≤ x + 1 / 2000000 := by
  rw [round6_eq]
  rw [div_le_iff₀ (by norm_num : (0 : ℚ) < 1000000)]
  calc ((⌊x * 1000000 + 1 / 2⌋ : ℤ) : ℚ) ≤ x * 1000000 + 1 / 2 := Int.floor_le _
    _ = (x + 1 / 2000000) * 1000000 := by ring

theorem round6_nonneg {y : ℚ} (h : -(1 / 2000000) ≤ y) : 0 ≤ round6 y := by
  rw [round6_eq]
  apply div_nonneg _ (by norm_num)
  have h2 : (0 : ℤ) ≤ ⌊y * 1000000 + 1 / 2⌋ := by
    apply Int.floor_nonneg.mpr
    linarith
  exact_mod_cast h2

theorem round6_gap_nonneg {rawSum target : ℚ} (h : rawSum ≤ target) :
    0 ≤ round6 (qsub target (round6 rawSum)) := by
  rw [qsub_eq]
  apply round6_nonneg
  have h2 := round6_le rawSum
  linarith

/-- Claim C2: every result of the pruned search reports the fixed target, a
sum that is the 6-decimal rounding of an underlying raw sum at most the
target, and a gap that is the 6-decimal rounding of target minus the
reported sum and is never negative. -/
theorem claim_C2 (candidates : List RawItem) (target : ℚ) (fA fB : String)
    (topKRaw : JNum) (dd : Bool) (dmt olt : JNum) :
    ∀ out ∈ bestTopKCombos candidates target fA fB topKRaw dd dmt olt,
      out.targetArea = target ∧
      ∃ rawSum : ℚ, rawSum ≤ target ∧ out.sumFixed = round6 rawSum ∧
        out.gap = round6 (qsub target out.sumFixed) ∧ 0 ≤ out.gap := by
  intro out hout
  simp only [bestTopKCombos] at hout
  split_ifs at hout with hempty
  · cases hout
  · obtain ⟨e, he, rfl⟩ := List.mem_map.mp hout
    have hok := searchP_entries _ _ _ _ e he
    refine ⟨rfl, e.sum, hok.1, rfl, rfl, ?_⟩
    exact round6_gap_nonneg hok.1

/-- Witness for claim C2 at the Scenario A run: the first returned row. -/
theorem claim_C2_witness :
    wOut33 ∈ bestTopKCombos cands8 40 "期房" "现房" (.fin 5) false .nan .nan ∧
    (wOut33.targetArea = 40 ∧
      ∃ rawSum : ℚ, rawSum ≤ 40 ∧ wOut33.sumFixed = round6 rawSum ∧
        wOut33.gap = round6 (qsub 40 wOut33.sumFixed) ∧ 0 ≤ wOut33.gap) :=
  ⟨by decide,
    claim_C2 cands8 40 "期房" "现房" (.fin 5) false .nan .nan wOut33 (by decide)⟩

/-- Claim C10: every result of the pruned bestTopKCombos contains at most
one pick that comes from the file-A source with an area strictly above 100,
and any candidate combination with two or more such picks leaves the
collector state untouched (it is silently discarded inside tryCollect). -/
theorem claim_C10 (candidates : List RawItem) (target : ℚ) (fA fB : String)
    (topKRaw : JNum) (dd : Bool) (dmt olt : JNum) :
    (∀ out ∈ bestTopKCombos candidates target fA fB topKRaw dd dmt olt,
      ∃ e : Entry,
        out = formatEntry ⟨target, fA, fB, clampK topKRaw, dd, dmt, olt⟩ e ∧
        largeQCount ⟨target, fA, fB, clampK topKRaw, dd, dmt, olt⟩ e.picked ≤ 1) ∧
    (∀ (ctx : Ctx) (s : TKState) (picked : List Item) (sum : ℚ),
      2 ≤ largeQCount ctx picked → tryCollect ctx s picked sum = s) := by
  constructor
  · intro out hout
    simp only [bestTopKCombos] at hout
    split_ifs at hout with hempty
    · cases hout
    · obtain ⟨e, he, rfl⟩ := List.mem_map.mp hout
      have hok := searchP_entries _ _ _ _ e he
      exact ⟨e, rfl, hok.2⟩
  · intro ctx s picked sum hbig
    unfold tryCollect
    split_ifs with h1 h2 <;> rfl

/-- Witness for claim C10: the candsC10 run returns the 120, 30, 20 result
with exactly one large file-A pick, and a pick list with two large file-A
items is discarded. -/
theorem claim_C10_witness :
    (wOutC10 ∈ bestTopKCombos candsC10 200 "期房" "现房" (.fin 10) false .nan .nan ∧
      2 ≤ largeQCount ctxC10 pickedC10bad) ∧
    (∃ e : Entry,
      wOutC10 = formatEntry ⟨200, "期房", "现房", clampK (.fin 10), false, .nan, .nan⟩ e ∧
      largeQCount ⟨200, "期房", "现房", clampK (.fin 10), false, .nan, .nan⟩ e.picked ≤ 1) ∧
    tryCollect ctxC10 ⟨[], ∅⟩ pickedC10bad 260 = ⟨[], ∅⟩ :=
  ⟨⟨by decide, by decide⟩,
    (claim_C10 candsC10 200 "期房" "现房" (.fin 10) false .nan .nan).1 wOutC10 (by decide),
    (claim_C10 candsC10 200 "期房" "现房" (.fin 10) false .nan .nan).2 ctxC10 ⟨[], ∅⟩
      pickedC10bad 260 (by decide)⟩

/-! ### Soundness of the pruning break (claim C4) -/

theorem good_empty {K : ℕ} : Good K (⟨[], ∅⟩ : TKState) := by
  refine ⟨List.sorted_nil, by simp, by simp [keysOf], by simp [keysOf]⟩

theorem clampK_pos (k : JNum) : 1 ≤ clampK k := by
  cases k with
  | nan => exact le_refl 1
  | fin q =>
    simp only [clampK]
    split_ifs with h
    · exact le_refl 1
    · have h1 : (1 : ℤ) ≤ max 1 (qfloor q) := le_max_left _ _
      omega

theorem tryCollect_good {ctx : Ctx} {s : TKState} {picked : List Item} {sum : ℚ}
    (hg : Good ctx.topK s) : Good ctx.topK (tryCollect ctx s picked sum) := by
  unfold tryCollect
  split_ifs <;> first | exact hg | exact pushTopK_good hg

theorem tryCollect_noop {ctx : Ctx} {s : TKState} {picked : List Item} {sum : ℚ}
    (hg : Good ctx.topK s) (hfull : s.topList.length = ctx.topK)
    (hle : sum ≤ minKeep s.topList) : tryCollect ctx s picked sum = s := by
  unfold tryCollect
  split_ifs <;> first | rfl | exact pushTopK_noop hg hfull hle

theorem area_le_maxAreaVal :
    ∀ (Z : List Item), List.Sorted areaLE Z → ∀ z ∈ Z, z.area ≤ maxAreaVal Z := by
  intro Z
  induction Z with
  | nil => intro _ z hz; cases hz
  | cons a t ih =>
    intro hs z hz
    obtain ⟨hrel, htail⟩ := List.sorted_cons.mp hs
    cases t with
    | nil =>
      rcases List.mem_singleton.mp hz with rfl
      simp [maxAreaVal]
    | cons b t2 =>
      have hmax : maxAreaVal (a :: b :: t2) = maxAreaVal (b :: t2) := by
        simp [maxAreaVal, List.getLast?_cons_cons]
      rw [hmax]
      rcases List.mem_cons.mp hz with rfl | hz2
      · exact le_trans (hrel b (List.mem_cons_self b t2))
          (ih htail b (List.mem_cons_self b t2))
      · exact ih htail z hz2

theorem innerLoopE_good {ctx : Ctx} {Z : List Item} {maxZ : ℚ} {pre : List Item} {base : ℚ} :
    ∀ (ys : List Item) (s : TKState), Good ctx.topK s →
      Good ctx.topK (innerLoopE ctx Z maxZ pre base ys s) := by
  intro ys
  induction ys with
  | nil => intro s hg; exact hg
  | cons y ys ih =>
    intro s hg
    simp only [innerLoopE]
    split_ifs with h1
    · exact ih s hg
    · split
      · exact ih _ (tryCollect_good hg)
      · exact ih s hg

theorem innerLoopE_noop {ctx : Ctx} {Z : List Item} {pre : List Item} {base : ℚ}
    (hZ : List.Sorted areaLE Z) :
    ∀ (ys : List Item) (s : TKState), Good ctx.topK s →
      s.topList.length = ctx.topK →
      (∀ y ∈ ys, ctx.targetNum < qadd base y.area ∨
        qadd (qadd base y.area) (maxAreaVal Z) ≤ minKeep s.topList) →
      innerLoopE ctx Z (maxAreaVal Z) pre base ys s = s := by
  intro ys
  induction ys with
  | nil => intro s _ _ _; rfl
  | cons y ys ih =>
    intro s hg hfull hbound
    simp only [innerLoopE]
    by_cases ht : ctx.targetNum < qadd base y.area
    · rw [if_pos ht]
      exact ih s hg hfull fun y2 hy2 => hbound y2 (List.mem_cons_of_mem _ hy2)
    · rw [if_neg ht]
      have hb : qadd (qadd base y.area) (maxAreaVal Z) ≤ minKeep s.topList :=
        (hbound y (List.mem_cons_self _ _)).resolve_left ht
      have hstep : (match pickBestUnderOrEqual Z (qsub ctx.targetNum (qadd base y.area)) with
          | some z => tryCollect ctx s (pre ++ [y, z]) (qadd (qadd base y.area) z.area)
          | none => s) = s := by
        cases hp : pickBestUnderOrEqual Z (qsub ctx.targetNum (qadd base y.area)) with
        | none => rfl
        | some z =>
          have hz := (pick_spec Z _ hZ).2 z hp
          have hzle : z.area ≤ maxAreaVal Z := area_le_maxAreaVal Z hZ z hz.1
          apply tryCollect_noop hg hfull
          rw [qadd_eq] at hb ⊢
          rw [qadd_eq] at hb ⊢
          linarith
      rw [hstep]
      exact ih s hg hfull fun y2 hy2 => hbound y2 (List.mem_cons_of_mem _ hy2)

theorem innerLoop_eq {ctx : Ctx} {Z : List Item} {pre : List Item} {base : ℚ}
    (hZ : List.Sorted areaLE Z) :
    ∀ (ys : List Item), List.Sorted (fun a b : Item => b.area ≤ a.area) ys →
      ∀ s : TKState, Good ctx.topK s →
      innerLoopP ctx Z (maxAreaVal Z) pre base ys s =
        innerLoopE ctx Z (maxAreaVal Z) pre base ys s := by
  intro ys
  induction ys with
  | nil => intro _ s _; rfl
  | cons y ys ih =>
    intro hys s hg
    obtain ⟨hrel, htail⟩ := List.sorted_cons.mp hys
    simp only [innerLoopP, innerLoopE]
    by_cases h1 : ctx.targetNum < qadd base y.area
    · rw [if_pos h1, if_pos h1]
      exact ih htail s hg
    · rw [if_neg h1, if_neg h1]
      by_cases h2 : ctx.topK ≤ s.topList.length ∧
          qadd (qadd base y.area) (maxAreaVal Z) ≤ minKeep s.topList
      · rw [if_pos h2]
        have hfull : s.topList.length = ctx.topK := le_antisymm hg.2.1 h2.1
        have hstep : (match pickBestUnderOrEqual Z (qsub ctx.targetNum (qadd base y.area)) with
            | some z => tryCollect ctx s (pre ++ [y, z]) (qadd (qadd base y.area) z.area)
            | none => s) = s := by
          cases hp : pickBestUnderOrEqual Z (qsub ctx.targetNum (qadd base y.area)) with
          | none => rfl
          | some z =>
            have hz := (pick_spec Z _ hZ).2 z hp
            have hzle : z.area ≤ maxAreaVal Z := area_le_maxAreaVal Z hZ z hz.1
            apply tryCollect_noop hg hfull
            have hb := h2.2
            simp only [qadd_eq] at hb ⊢
            linarith
        rw [hstep]
        symm
        apply innerLoopE_noop hZ ys s hg hfull
        intro y2 hy2
        right
        have hy2le : y2.area ≤ y.area := hrel y2 hy2
        have hb := h2.2
        simp only [qadd_eq] at hb ⊢
        linarith
      · rw [if_neg h2]
        cases hp : pickBestUnderOrEqual Z (qsub ctx.targetNum (qadd base y.area)) with
        | none =>
          simp only [hp]
          exact ih htail s hg
        | some z =>
          simp only [hp]
          exact ih htail _ (tryCollect_good hg)

theorem loop3E_good {ctx : Ctx} {C : List Item} {maxC : ℚ} {Bdesc : List Item} :
    ∀ (Adesc : List Item) (s : TKState), Good ctx.topK s →
      Good ctx.topK (loop3E ctx C maxC Bdesc Adesc s) := by
  intro Adesc
  induction Adesc with
  | nil => intro s hg; exact hg
  | cons a as ih =>
    intro s hg
    simp only [loop3E]
    exact ih _ (innerLoopE_good Bdesc s hg)

theorem loop3_eq {ctx : Ctx} {C Bdesc : List Item} (hC : List.Sorted areaLE C)
    (hBdesc : List.Sorted (fun a b : Item => b.area ≤ a.area) Bdesc) :
    ∀ (Adesc : List Item) (s : TKState), Good ctx.topK s →
      loop3P ctx C (maxAreaVal C) Bdesc Adesc s =
        loop3E ctx C (maxAreaVal C) Bdesc Adesc s := by
  intro Adesc
  induction Adesc with
  | nil => intro s _; rfl
  | cons a as ih =>
    intro s hg
    simp only [loop3P, loop3E]
    rw [innerLoop_eq hC Bdesc hBdesc s hg]
    exact ih _ (innerLoopE_good Bdesc s hg)

theorem pairLoopE_good {ctx : Ctx} {Z : List Item} {maxZ : ℚ} {Ydesc : List Item} :
    ∀ (ps : List (Item × Item)) (s : TKState), Good ctx.topK s →
      Good ctx.topK (pairLoopE ctx Z maxZ Ydesc ps s) := by
  intro ps
  induction ps with
  | nil => intro s hg; exact hg
  | cons p ps ih =>
    intro s hg
    obtain ⟨xi, xj⟩ := p
    simp only [pairLoopE]
    split_ifs with h1
    · exact ih s hg
    · exact ih _ (innerLoopE_good Ydesc s hg)

theorem pairLoop_eq {ctx : Ctx} {Z Ydesc : List Item} (hZ : List.Sorted areaLE Z)
    (hYdesc : List.Sorted (fun a b : Item => b.area ≤ a.area) Ydesc) :
    ∀ (ps : List (Item × Item)) (s : TKState), Good ctx.topK s →
      pairLoopP ctx Z (maxAreaVal Z) Ydesc ps s =
        pairLoopE ctx Z (maxAreaVal Z) Ydesc ps s := by
  intro ps
  induction ps with
  | nil => intro s _; rfl
  | cons p ps ih =>
    intro s hg
    obtain ⟨xi, xj⟩ := p
    simp only [pairLoopP, pairLoopE]
    split_ifs with h1
    · exact ih s hg
    · rw [innerLoop_eq hZ Ydesc hYdesc s hg]
      exact ih _ (innerLoopE_good Ydesc s hg)

theorem sorted_desc_reverse {l : List Item} (h : List.Sorted areaLE l) :
    List.Sorted (fun a b : Item => b.area ≤ a.area) l.reverse := by
  rw [List.Sorted, List.pairwise_reverse]
  exact h

theorem search_eq (ctx : Ctx) (byA byB byC : List Item)
    (hA : List.Sorted areaLE byA) (hB : List.Sorted areaLE byB)
    (hC : List.Sorted areaLE byC) :
    searchP ctx byA byB byC = searchE ctx byA byB byC := by
  have hAdesc := sorted_desc_reverse hA
  have hBdesc := sorted_desc_reverse hB
  simp only [searchP, searchE, enumFourP, enumFourE]
  rw [loop3_eq hC hBdesc byA.reverse ⟨[], ∅⟩ good_empty]
  have hg1 := @loop3E_good ctx byC (maxAreaVal byC) byB.reverse byA.reverse ⟨[], ∅⟩ good_empty
  rw [pairLoop_eq hC hBdesc _ _ hg1]
  have hg2 := @pairLoopE_good ctx byC (maxAreaVal byC) byB.reverse (offDiag byA.reverse) _ hg1
  rw [pairLoop_eq hC hAdesc _ _ hg2]
  have hg3 := @pairLoopE_good ctx byC (maxAreaVal byC) byA.reverse (offDiag byB.reverse) _ hg2
  rw [pairLoop_eq hB hAdesc _ _ hg3]

theorem eligibleGroup_sorted (candidates : List RawItem) (fA fB : String) (target : ℚ)
    (t : Char) : List.Sorted areaLE (eligibleGroup candidates fA fB target t) := by
  unfold eligibleGroup
  exact (List.sorted_insertionSort areaLE _).filter _

/-- Claim C4: the pruned solver (descending iteration with the early break
once the collector is full and the optimistic bound partial plus the largest
closing-group area cannot beat the worst retained sum) computes exactly the
same final result list as the same enumeration with every break removed:
every combination skipped by a break could not have changed the collector. -/
theorem claim_C4 (candidates : List RawItem) (target : ℚ) (fA fB : String)
    (topKRaw : JNum) (dd : Bool) (dmt olt : JNum) :
    bestTopKCombos candidates target fA fB topKRaw dd dmt olt =
      bestTopKCombosNoBreak candidates target fA fB topKRaw dd dmt olt := by
  simp only [bestTopKCombos, bestTopKCombosNoBreak]
  split_ifs with h
  · rfl
  · rw [search_eq _ _ _ _ (eligibleGroup_sorted candidates fA fB target 'A')
      (eligibleGroup_sorted candidates fA fB target 'B')
      (eligibleGroup_sorted candidates fA fB target 'C')]

end DXF
